import Mathlib

/-!
Verification of the affine-gap alignment cost engine of the `whatshap`
repository (`whatshap.align.edit_distance_affine_gap`, called `computeCost`
in the specification).  The repository snapshot contains only the test suite
for the engine (`tests/testalign_affine.py`); the engine itself is therefore
modelled from the specification: symbols are natural numbers (value equality
only), sequences are lists of symbols, and costs are the non-negative
integers used by the reference tests.
-/

namespace Whatshap

/-- Modelled from the spec: the per-cell substitution cost of §4.1,
`substCost(i,j) = 0` when `query[i-1] == reference[j-1]` and
`substitutionCosts[i-1]` otherwise (1-based `i`, `j` as in the spec). -/
def substCost (q r c : List Nat) (i j : Nat) : Nat :=
  if q.getD (i - 1) 0 = r.getD (j - 1) 0 then 0 else c.getD (i - 1) 0

/-- The three DP states of Gotoh's recurrence plus the overall optimum `D`. -/
inductive GState : Type
  | M : GState
  | X : GState
  | Y : GState
  | D : GState
deriving DecidableEq

/-- Rank used by the termination measure: `D` calls `M`/`X`/`Y` at the same
cell, every other call strictly decreases `i + j`. -/
def GState.rank : GState → Nat
  | .D => 1
  | _ => 0

/-- Modelled from the spec: Gotoh's three-state affine-gap recurrence of
§4.1 for `edit_distance_affine_gap`, whose implementation is absent from the
repository snapshot (only its tests are present).
`affine q r c g e s i j` is the value of state `s` at cell `(i, j)`:
`M(i,j) = D(i-1,j-1) + substCost(i,j)`,
`X(i,j) = min (D(i-1,j) + g) (X(i-1,j) + e)` (the undefined `X(0,j)` term is
absent at `i = 1`), `Y(i,j) = min (D(i,j-1) + g) (Y(i,j-1) + e)` likewise,
`D(i,j) = min M (min X Y)` with boundaries `D(0,0) = 0`,
`D(i,0) = g + (i-1)e`, `D(0,j) = g + (j-1)e`.  Cells the spec leaves
undefined (`M`, `X`, `Y` on the boundary row/column) are given the junk
value `0`; no recurrence ever reads them. -/
def affine (q r c : List Nat) (g e : Nat) : GState → Nat → Nat → Nat
  | .D, 0, 0 => 0
  | .D, i + 1, 0 => g + i * e
  | .D, 0, j + 1 => g + j * e
  | .D, i + 1, j + 1 =>
      min (affine q r c g e .M (i + 1) (j + 1))
        (min (affine q r c g e .X (i + 1) (j + 1)) (affine q r c g e .Y (i + 1) (j + 1)))
  | .M, i + 1, j + 1 => affine q r c g e .D i j + substCost q r c (i + 1) (j + 1)
  | .M, _, _ => 0
  | .X, 1, j + 1 => affine q r c g e .D 0 (j + 1) + g
  | .X, i + 2, j + 1 =>
      min (affine q r c g e .D (i + 1) (j + 1) + g) (affine q r c g e .X (i + 1) (j + 1) + e)
  | .X, _, _ => 0
  | .Y, i + 1, 1 => affine q r c g e .D (i + 1) 0 + g
  | .Y, i + 1, j + 2 =>
      min (affine q r c g e .D (i + 1) (j + 1) + g) (affine q r c g e .Y (i + 1) (j + 1) + e)
  | .Y, _, _ => 0
termination_by s i j => 2 * (i + j) + s.rank
decreasing_by all_goals (simp [GState.rank]; try omega)

/-- The scalar result of the engine on validated inputs: `D(n, m)`. -/
def affineD (q r c : List Nat) (g e : Nat) : Nat :=
  affine q r c g e .D q.length r.length

/-- Modelled from the spec: the public operation
`computeCost(query, reference, substitutionCosts, gapOpenCost, gapExtendCost)`
of §4.1/§7 for `edit_distance_affine_gap`, whose implementation is absent
from the repository snapshot.  It validates the inputs before any DP work
(`InvalidCostArrayLength` when the cost array length differs from the query
length, `InvalidCostValue` when a gap cost or a substitution cost is
negative) and otherwise returns `D(n, m)` of the recurrence. -/
def computeCost (query reference : List Nat) (substitutionCosts : List Int)
    (gapOpenCost gapExtendCost : Int) : Except String Nat :=
  if substitutionCosts.length ≠ query.length then
    Except.error "InvalidCostArrayLength"
  else if gapOpenCost < 0 ∨ gapExtendCost < 0 ∨ ∃ x ∈ substitutionCosts, x < 0 then
    Except.error "InvalidCostValue"
  else
    Except.ok (affine query reference (substitutionCosts.map Int.toNat)
      gapOpenCost.toNat gapExtendCost.toNat .D query.length reference.length)

/-! ### An executable row-by-row evaluator for the recurrence

`affine` is defined by well-founded recursion and therefore does not reduce
inside the kernel; the rolling-array evaluator below (the implementation
shape §4.1 suggests) is structurally recursive, hence computable by
`decide`/`rfl`, and is proved to agree with the recurrence. -/

/-- One cell of row `i + 1` of the DP table.  Given the `D`- and `X`-rows of
row `i` (as lists indexed by `j`), `colStep q r c g e i prevD prevX j`
returns `(D(i+1,j), X(i+1,j), Y(i+1,j))`, with the same junk-`0` convention
as `affine` for the undefined `X`/`Y` cells at `j = 0`. -/
def colStep (q r c : List Nat) (g e i : Nat) (prevD prevX : List Nat) :
    Nat → Nat × Nat × Nat
  | 0 => (prevD.getD 0 0 + (if i = 0 then g else e), 0, 0)
  | j + 1 =>
      let p := colStep q r c g e i prevD prevX j
      let x :=
        if i = 0 then prevD.getD (j + 1) 0 + g
        else min (prevD.getD (j + 1) 0 + g) (prevX.getD (j + 1) 0 + e)
      let m := prevD.getD j 0 + substCost q r c (i + 1) (j + 1)
      let y := if j = 0 then p.1 + g else min (p.1 + g) (p.2.2 + e)
      (min m (min x y), x, y)

/-- Row 0 of the `D` table: `D(0, j)` for `0 ≤ j ≤ m`. -/
def row0 (m g e : Nat) : List Nat :=
  (List.range (m + 1)).map (fun j => if j = 0 then 0 else g + (j - 1) * e)

/-- Iterate `colStep` for `k` further rows starting at row `i`, returning the
final `D`-row. -/
def affineTabAux (q r c : List Nat) (g e : Nat) :
    Nat → Nat → List Nat → List Nat → List Nat
  | 0, _, prevD, _ => prevD
  | k + 1, i, prevD, prevX =>
      affineTabAux q r c g e k (i + 1)
        ((List.range (r.length + 1)).map (fun j => (colStep q r c g e i prevD prevX j).1))
        ((List.range (r.length + 1)).map (fun j => (colStep q r c g e i prevD prevX j).2.1))

/-- Rolling-array evaluation of the whole table: `D(n, m)`. -/
def affineTab (q r c : List Nat) (g e : Nat) : Nat :=
  (affineTabAux q r c g e q.length 0 (row0 r.length g e)
      (List.replicate (r.length + 1) 0)).getD r.length 0

/-! ### Unfolding lemmas for the recurrence, one per cell shape -/

theorem affine_D_zero_zero (q r c : List Nat) (g e : Nat) :
    affine q r c g e .D 0 0 = 0 := by
  simp [affine]

theorem affine_D_succ_zero (q r c : List Nat) (g e i : Nat) :
    affine q r c g e .D (i + 1) 0 = g + i * e := by
  simp [affine]

theorem affine_D_zero_succ (q r c : List Nat) (g e j : Nat) :
    affine q r c g e .D 0 (j + 1) = g + j * e := by
  simp [affine]

theorem affine_D_succ_succ (q r c : List Nat) (g e i j : Nat) :
    affine q r c g e .D (i + 1) (j + 1) =
      min (affine q r c g e .M (i + 1) (j + 1))
        (min (affine q r c g e .X (i + 1) (j + 1)) (affine q r c g e .Y (i + 1) (j + 1))) := by
  simp [affine]

theorem affine_M_succ_succ (q r c : List Nat) (g e i j : Nat) :
    affine q r c g e .M (i + 1) (j + 1) =
      affine q r c g e .D i j + substCost q r c (i + 1) (j + 1) := by
  simp [affine]

theorem affine_X_one_succ (q r c : List Nat) (g e j : Nat) :
    affine q r c g e .X 1 (j + 1) = affine q r c g e .D 0 (j + 1) + g := by
  simp [affine]

theorem affine_X_succ_succ (q r c : List Nat) (g e i j : Nat) :
    affine q r c g e .X (i + 2) (j + 1) =
      min (affine q r c g e .D (i + 1) (j + 1) + g)
        (affine q r c g e .X (i + 1) (j + 1) + e) := by
  simp [affine]

theorem affine_X_zero (q r c : List Nat) (g e i : Nat) :
    affine q r c g e .X i 0 = 0 := by
  rcases i with _ | _ | i <;> simp [affine]

theorem affine_Y_succ_one (q r c : List Nat) (g e i : Nat) :
    affine q r c g e .Y (i + 1) 1 = affine q r c g e .D (i + 1) 0 + g := by
  simp [affine]

theorem affine_Y_succ_succ (q r c : List Nat) (g e i j : Nat) :
    affine q r c g e .Y (i + 1) (j + 2) =
      min (affine q r c g e .D (i + 1) (j + 1) + g)
        (affine q r c g e .Y (i + 1) (j + 1) + e) := by
  simp [affine]

theorem affine_Y_zero (q r c : List Nat) (g e j : Nat) :
    affine q r c g e .Y 0 j = 0 := by
  rcases j with _ | j <;> simp [affine]

theorem affine_Y_zero_right (q r c : List Nat) (g e i : Nat) :
    affine q r c g e .Y i 0 = 0 := by
  rcases i with _ | i <;> simp [affine]

/-! ### The rolling-array evaluator agrees with the recurrence -/

theorem getD_range_map (f : Nat → Nat) {n j : Nat} (h : j < n) :
    ((List.range n).map f).getD j 0 = f j := by
  rw [List.getD_eq_getElem?_getD, List.getElem?_map, List.getElem?_range h]
  rfl

theorem colStep_correct (q r c : List Nat) (g e : Nat) (i : Nat)
    (prevD prevX : List Nat) (m : Nat)
    (hD : ∀ j, j ≤ m → prevD.getD j 0 = affine q r c g e .D i j)
    (hX : ∀ j, 1 ≤ i → 1 ≤ j → j ≤ m → prevX.getD j 0 = affine q r c g e .X i j) :
    ∀ j, j ≤ m → colStep q r c g e i prevD prevX j =
      (affine q r c g e .D (i + 1) j, affine q r c g e .X (i + 1) j,
        affine q r c g e .Y (i + 1) j) := by
  intro j
  induction j with
  | zero =>
    intro _
    have h0 := hD 0 (Nat.zero_le m)
    rcases i with _ | i
    · simp only [colStep, if_pos rfl, h0, affine_D_zero_zero, affine_D_succ_zero,
        affine_X_zero, affine_Y_zero_right]
      simp
    · simp only [colStep, if_neg (Nat.succ_ne_zero i), h0, affine_D_succ_zero,
        affine_X_zero, affine_Y_zero_right]
      refine Prod.ext ?_ rfl
      show g + i * e + e = g + (i + 1) * e
      ring
  | succ j ih =>
    intro hj
    have hj' : j ≤ m := Nat.le_of_succ_le hj
    have hp := ih hj'
    have hD1 := hD (j + 1) hj
    have hDj := hD j hj'
    have hx2 : (if i = 0 then prevD.getD (j + 1) 0 + g
        else min (prevD.getD (j + 1) 0 + g) (prevX.getD (j + 1) 0 + e)) =
        affine q r c g e .X (i + 1) (j + 1) := by
      rcases i with _ | i
      · rw [if_pos rfl, hD1, affine_X_one_succ]
      · rw [if_neg (Nat.succ_ne_zero i), hD1,
          hX (j + 1) (by omega) (by omega) hj, affine_X_succ_succ]
    have hm2 : prevD.getD j 0 + substCost q r c (i + 1) (j + 1) =
        affine q r c g e .M (i + 1) (j + 1) := by
      rw [hDj, affine_M_succ_succ]
    have hy2 : (if j = 0 then affine q r c g e .D (i + 1) j + g
        else min (affine q r c g e .D (i + 1) j + g) (affine q r c g e .Y (i + 1) j + e)) =
        affine q r c g e .Y (i + 1) (j + 1) := by
      rcases j with _ | j
      · rw [if_pos rfl, affine_Y_succ_one]
      · rw [if_neg (Nat.succ_ne_zero j), affine_Y_succ_succ]
    have hd2 : min (prevD.getD j 0 + substCost q r c (i + 1) (j + 1))
        (min (if i = 0 then prevD.getD (j + 1) 0 + g
            else min (prevD.getD (j + 1) 0 + g) (prevX.getD (j + 1) 0 + e))
          (if j = 0 then affine q r c g e .D (i + 1) j + g
            else min (affine q r c g e .D (i + 1) j + g)
              (affine q r c g e .Y (i + 1) j + e))) =
        affine q r c g e .D (i + 1) (j + 1) := by
      rw [hm2, hx2, hy2, affine_D_succ_succ]
    simp only [colStep]
    rw [hp]
    exact Prod.ext hd2 (Prod.ext hx2 hy2)

theorem affineTabAux_correct (q r c : List Nat) (g e : Nat) :
    ∀ k i prevD prevX,
      (∀ j, j ≤ r.length → prevD.getD j 0 = affine q r c g e .D i j) →
      (∀ j, 1 ≤ i → 1 ≤ j → j ≤ r.length → prevX.getD j 0 = affine q r c g e .X i j) →
      ∀ j, j ≤ r.length →
        (affineTabAux q r c g e k i prevD prevX).getD j 0 = affine q r c g e .D (i + k) j := by
  intro k
  induction k with
  | zero =>
    intro i prevD prevX hD _ j hj
    simpa using hD j hj
  | succ k ih =>
    intro i prevD prevX hD hX j hj
    have hcol := colStep_correct q r c g e i prevD prevX r.length hD hX
    have hD' : ∀ j, j ≤ r.length →
        ((List.range (r.length + 1)).map
          (fun j => (colStep q r c g e i prevD prevX j).1)).getD j 0 =
        affine q r c g e .D (i + 1) j := by
      intro j hj
      rw [getD_range_map _ (Nat.lt_succ_of_le hj), hcol j hj]
    have hX' : ∀ j, 1 ≤ i + 1 → 1 ≤ j → j ≤ r.length →
        ((List.range (r.length + 1)).map
          (fun j => (colStep q r c g e i prevD prevX j).2.1)).getD j 0 =
        affine q r c g e .X (i + 1) j := by
      intro j _ _ hj
      rw [getD_range_map _ (Nat.lt_succ_of_le hj), hcol j hj]
    have hik : i + (k + 1) = i + 1 + k := by omega
    rw [hik]
    simp only [affineTabAux]
    exact ih (i + 1) _ _ hD' hX' j hj

theorem affineTab_eq (q r c : List Nat) (g e : Nat) :
    affineTab q r c g e = affineD q r c g e := by
  have h0 : ∀ j, j ≤ r.length → (row0 r.length g e).getD j 0 = affine q r c g e .D 0 j := by
    intro j hj
    rw [row0, getD_range_map _ (Nat.lt_succ_of_le hj)]
    rcases j with _ | j
    · simp [affine_D_zero_zero]
    · simp [affine_D_zero_succ]
  have hx : ∀ j, 1 ≤ (0 : Nat) → 1 ≤ j → j ≤ r.length →
      (List.replicate (r.length + 1) 0).getD j 0 = affine q r c g e .X 0 j := by
    intro j h
    exact absurd h (by omega)
  have := affineTabAux_correct q r c g e q.length 0 _ _ h0 hx r.length le_rfl
  rw [affineTab, affineD, this, Nat.zero_add]

/-! ### Alignment semantics

The spec's cost model over explicit alignments: an alignment is a list of
edit operations; a maximal run of `L` consecutive deletions (resp.
insertions) costs `gapOpenCost + (L-1) * gapExtendCost`, and a
match/substitution column at query position `i` costs `0` when the symbols
agree and `substitutionCosts[i]` otherwise. -/

/-- One alignment column: a match/substitution (consumes one symbol of each
sequence), a deletion (consumes one query symbol), or an insertion (consumes
one reference symbol). -/
inductive Op : Type
  | sub : Op
  | del : Op
  | ins : Op
deriving DecidableEq

/-- Cost of the remaining alignment columns, given the number of query and
reference symbols already consumed and the previous column (to detect gap-run
continuations, which cost `e` instead of `g`). -/
def alignCost (q r c : List Nat) (g e : Nat) : Nat → Nat → Option Op → List Op → Nat
  | _, _, _, [] => 0
  | i, j, _, .sub :: rest =>
      (if q.getD i 0 = r.getD j 0 then 0 else c.getD i 0) +
        alignCost q r c g e (i + 1) (j + 1) (some .sub) rest
  | i, j, prev, .del :: rest =>
      (if prev = some Op.del then e else g) + alignCost q r c g e (i + 1) j (some .del) rest
  | i, j, prev, .ins :: rest =>
      (if prev = some Op.ins then e else g) + alignCost q r c g e i (j + 1) (some .ins) rest

/-- Total cost of an alignment, starting at the beginning of both sequences. -/
def alignmentCost (q r c : List Nat) (g e : Nat) (a : List Op) : Nat :=
  alignCost q r c g e 0 0 none a

/-- `a` is an alignment of a length-`n` query against a length-`m` reference:
its columns consume exactly `n` query symbols and `m` reference symbols. -/
def IsAlign (n m : Nat) (a : List Op) : Prop :=
  a.count Op.sub + a.count Op.del = n ∧ a.count Op.sub + a.count Op.ins = m

instance (n m : Nat) (a : List Op) : Decidable (IsAlign n m a) := by
  unfold IsAlign
  infer_instance

/-- The operation preceding whatever follows `prev ++ a`. -/
def lastOp (prev : Option Op) (a : List Op) : Option Op :=
  match a.getLast? with
  | some o => some o
  | none => prev

theorem lastOp_cons (prev : Option Op) (x : Op) (xs : List Op) :
    lastOp prev (x :: xs) = lastOp (some x) xs := by
  cases xs with
  | nil => simp [lastOp]
  | cons y ys =>
    obtain ⟨o, ho⟩ : ∃ o, (y :: ys).getLast? = some o := by
      cases h : (y :: ys).getLast? with
      | some o => exact ⟨o, rfl⟩
      | none => simp at h
    unfold lastOp
    rw [List.getLast?_cons_cons, ho]

theorem alignCost_append (q r c : List Nat) (g e : Nat) :
    ∀ (xs ys : List Op) (i j : Nat) (prev : Option Op),
      alignCost q r c g e i j prev (xs ++ ys) =
        alignCost q r c g e i j prev xs +
          alignCost q r c g e (i + (xs.count Op.sub + xs.count Op.del))
            (j + (xs.count Op.sub + xs.count Op.ins)) (lastOp prev xs) ys := by
  intro xs
  induction xs with
  | nil => simp [alignCost, lastOp]
  | cons x xs ih =>
    intro ys i j prev
    cases x with
    | sub =>
      rw [(show (Op.sub :: xs).count Op.sub + (Op.sub :: xs).count Op.del =
            xs.count Op.sub + xs.count Op.del + 1 by simp [List.count_cons]; omega),
        (show (Op.sub :: xs).count Op.sub + (Op.sub :: xs).count Op.ins =
            xs.count Op.sub + xs.count Op.ins + 1 by simp [List.count_cons]; omega),
        lastOp_cons, List.cons_append]
      simp only [alignCost]
      rw [ih ys (i + 1) (j + 1) (some Op.sub),
        (show i + (xs.count Op.sub + xs.count Op.del + 1) =
          i + 1 + (xs.count Op.sub + xs.count Op.del) by omega),
        (show j + (xs.count Op.sub + xs.count Op.ins + 1) =
          j + 1 + (xs.count Op.sub + xs.count Op.ins) by omega)]
      ring
    | del =>
      rw [(show (Op.del :: xs).count Op.sub + (Op.del :: xs).count Op.del =
            xs.count Op.sub + xs.count Op.del + 1 by simp [List.count_cons]; omega),
        (show (Op.del :: xs).count Op.sub + (Op.del :: xs).count Op.ins =
            xs.count Op.sub + xs.count Op.ins by simp [List.count_cons]),
        lastOp_cons, List.cons_append]
      simp only [alignCost]
      rw [ih ys (i + 1) j (some Op.del),
        (show i + (xs.count Op.sub + xs.count Op.del + 1) =
          i + 1 + (xs.count Op.sub + xs.count Op.del) by omega)]
      ring
    | ins =>
      rw [(show (Op.ins :: xs).count Op.sub + (Op.ins :: xs).count Op.del =
            xs.count Op.sub + xs.count Op.del by simp [List.count_cons]),
        (show (Op.ins :: xs).count Op.sub + (Op.ins :: xs).count Op.ins =
            xs.count Op.sub + xs.count Op.ins + 1 by simp [List.count_cons]; omega),
        lastOp_cons, List.cons_append]
      simp only [alignCost]
      rw [ih ys i (j + 1) (some Op.ins),
        (show j + (xs.count Op.sub + xs.count Op.ins + 1) =
          j + 1 + (xs.count Op.sub + xs.count Op.ins) by omega)]
      ring

theorem lastOp_none (a : List Op) : lastOp none a = a.getLast? := by
  unfold lastOp
  cases a.getLast? <;> rfl

theorem alignmentCost_snoc_sub (q r c : List Nat) (g e : Nat) (a : List Op) :
    alignmentCost q r c g e (a ++ [Op.sub]) = alignmentCost q r c g e a +
      (if q.getD (a.count Op.sub + a.count Op.del) 0 =
          r.getD (a.count Op.sub + a.count Op.ins) 0 then 0
        else c.getD (a.count Op.sub + a.count Op.del) 0) := by
  rw [alignmentCost, alignCost_append, alignmentCost]
  simp [alignCost]

theorem alignmentCost_snoc_del (q r c : List Nat) (g e : Nat) (a : List Op) :
    alignmentCost q r c g e (a ++ [Op.del]) = alignmentCost q r c g e a +
      (if a.getLast? = some Op.del then e else g) := by
  rw [alignmentCost, alignCost_append, alignmentCost, lastOp_none]
  simp [alignCost]

theorem alignmentCost_snoc_ins (q r c : List Nat) (g e : Nat) (a : List Op) :
    alignmentCost q r c g e (a ++ [Op.ins]) = alignmentCost q r c g e a +
      (if a.getLast? = some Op.ins then e else g) := by
  rw [alignmentCost, alignCost_append, alignmentCost, lastOp_none]
  simp [alignCost]

theorem alignCost_replicate_del_cont (q r c : List Nat) (g e : Nat) :
    ∀ k i j, alignCost q r c g e i j (some Op.del) (List.replicate k Op.del) = k * e := by
  intro k
  induction k with
  | zero => intro i j; simp [alignCost]
  | succ k ih =>
    intro i j
    rw [List.replicate_succ]
    simp [alignCost, ih]
    ring

theorem alignCost_replicate_del (q r c : List Nat) (g e : Nat) (k i j : Nat)
    (prev : Option Op) (h : prev ≠ some Op.del) :
    alignCost q r c g e i j prev (List.replicate (k + 1) Op.del) = g + k * e := by
  rw [List.replicate_succ]
  simp only [alignCost, if_neg h, alignCost_replicate_del_cont]

theorem alignCost_replicate_ins_cont (q r c : List Nat) (g e : Nat) :
    ∀ k i j, alignCost q r c g e i j (some Op.ins) (List.replicate k Op.ins) = k * e := by
  intro k
  induction k with
  | zero => intro i j; simp [alignCost]
  | succ k ih =>
    intro i j
    rw [List.replicate_succ]
    simp [alignCost, ih]
    ring

theorem alignCost_replicate_ins (q r c : List Nat) (g e : Nat) (k i j : Nat)
    (prev : Option Op) (h : prev ≠ some Op.ins) :
    alignCost q r c g e i j prev (List.replicate (k + 1) Op.ins) = g + k * e := by
  rw [List.replicate_succ]
  simp only [alignCost, if_neg h, alignCost_replicate_ins_cont]

/-- The cost of substituting the next `k` columns starting at query position
`i` and reference position `j` (the "all-substitution" strategy of §3). -/
def allSubCostFrom (q r c : List Nat) : Nat → Nat → Nat → Nat
  | 0, _, _ => 0
  | k + 1, i, j =>
      (if q.getD i 0 = r.getD j 0 then 0 else c.getD i 0) +
        allSubCostFrom q r c k (i + 1) (j + 1)

/-- The cost of the alignment that substitutes every position (defined for
equal-length inputs; §3's "all-substitution cost"). -/
def allSubCost (q r c : List Nat) : Nat :=
  allSubCostFrom q r c q.length 0 0

theorem alignCost_replicate_sub (q r c : List Nat) (g e : Nat) :
    ∀ k i j (prev : Option Op),
      alignCost q r c g e i j prev (List.replicate k Op.sub) = allSubCostFrom q r c k i j := by
  intro k
  induction k with
  | zero => intro i j prev; simp [alignCost, allSubCostFrom]
  | succ k ih =>
    intro i j prev
    rw [List.replicate_succ]
    simp only [alignCost, allSubCostFrom, ih]

/-- An alignment against an empty reference is a single run of deletions. -/
theorem align_right_empty (a : List Op) (i : Nat) (h : IsAlign i 0 a) :
    a = List.replicate i Op.del := by
  obtain ⟨h1, h2⟩ := h
  have hsub : a.count Op.sub = 0 := by omega
  have hall : ∀ x ∈ a, x = Op.del := by
    intro x hx
    cases x with
    | sub => exact absurd (List.count_pos_iff.mpr hx) (by omega)
    | del => rfl
    | ins => exact absurd (List.count_pos_iff.mpr hx) (by omega)
  refine List.eq_replicate_iff.mpr ⟨?_, hall⟩
  have := List.count_eq_length.mpr (fun b hb => (hall b hb).symm)
  omega

/-- An alignment of an empty query is a single run of insertions. -/
theorem align_left_empty (a : List Op) (j : Nat) (h : IsAlign 0 j a) :
    a = List.replicate j Op.ins := by
  obtain ⟨h1, h2⟩ := h
  have hsub : a.count Op.sub = 0 := by omega
  have hall : ∀ x ∈ a, x = Op.ins := by
    intro x hx
    cases x with
    | sub => exact absurd (List.count_pos_iff.mpr hx) (by omega)
    | del => exact absurd (List.count_pos_iff.mpr hx) (by omega)
    | ins => rfl
  refine List.eq_replicate_iff.mpr ⟨?_, hall⟩
  have := List.count_eq_length.mpr (fun b hb => (hall b hb).symm)
  omega

/-! ### The recurrence lower-bounds every alignment's cost -/

theorem affine_D_le_M (q r c : List Nat) (g e i j : Nat) :
    affine q r c g e .D (i + 1) (j + 1) ≤ affine q r c g e .M (i + 1) (j + 1) := by
  rw [affine_D_succ_succ]
  exact min_le_left _ _

theorem affine_D_le_X (q r c : List Nat) (g e i j : Nat) :
    affine q r c g e .D (i + 1) (j + 1) ≤ affine q r c g e .X (i + 1) (j + 1) := by
  rw [affine_D_succ_succ]
  exact le_trans (min_le_right _ _) (min_le_left _ _)

theorem affine_D_le_Y (q r c : List Nat) (g e i j : Nat) :
    affine q r c g e .D (i + 1) (j + 1) ≤ affine q r c g e .Y (i + 1) (j + 1) := by
  rw [affine_D_succ_succ]
  exact le_trans (min_le_right _ _) (min_le_right _ _)

theorem affine_X_le_open (q r c : List Nat) (g e i j : Nat) :
    affine q r c g e .X (i + 1) (j + 1) ≤ affine q r c g e .D i (j + 1) + g := by
  rcases i with _ | i
  · rw [affine_X_one_succ]
  · rw [affine_X_succ_succ]
    exact min_le_left _ _

theorem affine_X_le_ext (q r c : List Nat) (g e i j : Nat) :
    affine q r c g e .X (i + 2) (j + 1) ≤ affine q r c g e .X (i + 1) (j + 1) + e := by
  rw [affine_X_succ_succ]
  exact min_le_right _ _

theorem affine_Y_le_open (q r c : List Nat) (g e i j : Nat) :
    affine q r c g e .Y (i + 1) (j + 1) ≤ affine q r c g e .D (i + 1) j + g := by
  rcases j with _ | j
  · rw [affine_Y_succ_one]
  · rw [affine_Y_succ_succ]
    exact min_le_left _ _

theorem affine_Y_le_ext (q r c : List Nat) (g e i j : Nat) :
    affine q r c g e .Y (i + 1) (j + 2) ≤ affine q r c g e .Y (i + 1) (j + 1) + e := by
  rw [affine_Y_succ_succ]
  exact min_le_right _ _

theorem mem_of_getLast?_eq (a : List Op) (o : Op) (h : a.getLast? = some o) : o ∈ a := by
  obtain ⟨hne, rfl⟩ := List.mem_getLast?_eq_getLast (Option.mem_def.mpr h)
  exact List.getLast_mem hne

/-- Soundness direction of Gotoh's recurrence: every DP state value is a
lower bound on the cost of every alignment of the corresponding prefix shape
(ending in a matching column kind for `M`/`X`/`Y`).  Holds for all
non-negative costs, with no relation between `g` and `e`. -/
theorem affine_le_alignmentCost (q r c : List Nat) (g e : Nat) :
    ∀ (a : List Op) (i j : Nat), IsAlign i j a →
      (affine q r c g e .D i j ≤ alignmentCost q r c g e a) ∧
      (a.getLast? = some Op.sub → affine q r c g e .M i j ≤ alignmentCost q r c g e a) ∧
      (a.getLast? = some Op.del → 1 ≤ j → affine q r c g e .X i j ≤ alignmentCost q r c g e a) ∧
      (a.getLast? = some Op.ins → 1 ≤ i → affine q r c g e .Y i j ≤ alignmentCost q r c g e a) := by
  intro a
  induction a using List.reverseRecOn with
  | nil =>
    intro i j h
    obtain ⟨h1, h2⟩ := h
    simp only [List.count_nil, Nat.add_zero] at h1 h2
    subst h1
    subst h2
    refine ⟨?_, by simp, by simp, by simp⟩
    rw [affine_D_zero_zero]
    exact Nat.zero_le _
  | append_singleton xs o ih =>
    intro i j h
    obtain ⟨h1, h2⟩ := h
    have hlast : (xs ++ [o]).getLast? = some o := List.getLast?_concat _
    cases o with
    | sub =>
      simp [List.count_append, List.count_cons, beq_iff_eq] at h1 h2
      obtain ⟨i', rfl⟩ : ∃ i', i = i' + 1 := ⟨i - 1, by omega⟩
      obtain ⟨j', rfl⟩ : ∃ j', j = j' + 1 := ⟨j - 1, by omega⟩
      have hxs : IsAlign i' j' xs := ⟨by omega, by omega⟩
      have hD := (ih i' j' hxs).1
      have hcost : alignmentCost q r c g e (xs ++ [Op.sub]) =
          alignmentCost q r c g e xs + substCost q r c (i' + 1) (j' + 1) := by
        rw [alignmentCost_snoc_sub,
          (show xs.count Op.sub + xs.count Op.del = i' by omega),
          (show xs.count Op.sub + xs.count Op.ins = j' by omega)]
        simp [substCost]
      have hM : affine q r c g e .M (i' + 1) (j' + 1) ≤
          alignmentCost q r c g e (xs ++ [Op.sub]) := by
        rw [hcost, affine_M_succ_succ]
        exact Nat.add_le_add_right hD _
      refine ⟨le_trans (affine_D_le_M q r c g e i' j') hM, fun _ => hM, ?_, ?_⟩
      · rw [hlast]
        intro hbad
        exact absurd (Option.some.inj hbad) (by simp)
      · rw [hlast]
        intro hbad
        exact absurd (Option.some.inj hbad) (by simp)
    | del =>
      simp [List.count_append, List.count_cons, beq_iff_eq] at h1 h2
      obtain ⟨i', rfl⟩ : ∃ i', i = i' + 1 := ⟨i - 1, by omega⟩
      have hxs : IsAlign i' j xs := ⟨by omega, by omega⟩
      have hcost : alignmentCost q r c g e (xs ++ [Op.del]) =
          alignmentCost q r c g e xs + (if xs.getLast? = some Op.del then e else g) :=
        alignmentCost_snoc_del q r c g e xs
      have hX : ∀ j', j = j' + 1 → affine q r c g e .X (i' + 1) j ≤
          alignmentCost q r c g e (xs ++ [Op.del]) := by
        intro j' hj
        subst hj
        by_cases hxl : xs.getLast? = some Op.del
        · have hmem := mem_of_getLast?_eq xs Op.del hxl
          have hpos : 0 < xs.count Op.del := List.count_pos_iff.mpr hmem
          obtain ⟨i'', rfl⟩ : ∃ i'', i' = i'' + 1 := ⟨i' - 1, by omega⟩
          have hXxs := (ih (i'' + 1) (j' + 1) hxs).2.2.1 hxl (by omega)
          rw [hcost, if_pos hxl]
          exact le_trans (affine_X_le_ext q r c g e i'' j') (Nat.add_le_add_right hXxs _)
        · have hDxs := (ih i' (j' + 1) hxs).1
          rw [hcost, if_neg hxl]
          exact le_trans (affine_X_le_open q r c g e i' j') (Nat.add_le_add_right hDxs _)
      have hD : affine q r c g e .D (i' + 1) j ≤
          alignmentCost q r c g e (xs ++ [Op.del]) := by
        rcases j with _ | j'
        · have ha := align_right_empty (xs ++ [Op.del]) (i' + 1)
            ⟨by simp [List.count_append, List.count_cons, beq_iff_eq]; omega,
             by simp [List.count_append, List.count_cons, beq_iff_eq]; omega⟩
          rw [ha, alignmentCost,
            alignCost_replicate_del q r c g e i' 0 0 none (by simp),
            affine_D_succ_zero]
        · exact le_trans (affine_D_le_X q r c g e i' j') (hX j' rfl)
      refine ⟨hD, ?_, fun _ hj => ?_, ?_⟩
      · rw [hlast]
        intro hbad
        exact absurd (Option.some.inj hbad) (by simp)
      · obtain ⟨j', rfl⟩ : ∃ j', j = j' + 1 := ⟨j - 1, by omega⟩
        exact hX j' rfl
      · rw [hlast]
        intro hbad
        exact absurd (Option.some.inj hbad) (by simp)
    | ins =>
      simp [List.count_append, List.count_cons, beq_iff_eq] at h1 h2
      obtain ⟨j', rfl⟩ : ∃ j', j = j' + 1 := ⟨j - 1, by omega⟩
      have hxs : IsAlign i j' xs := ⟨by omega, by omega⟩
      have hcost : alignmentCost q r c g e (xs ++ [Op.ins]) =
          alignmentCost q r c g e xs + (if xs.getLast? = some Op.ins then e else g) :=
        alignmentCost_snoc_ins q r c g e xs
      have hY : ∀ i', i = i' + 1 → affine q r c g e .Y i (j' + 1) ≤
          alignmentCost q r c g e (xs ++ [Op.ins]) := by
        intro i' hi
        subst hi
        by_cases hxl : xs.getLast? = some Op.ins
        · have hmem := mem_of_getLast?_eq xs Op.ins hxl
          have hpos : 0 < xs.count Op.ins := List.count_pos_iff.mpr hmem
          obtain ⟨j'', rfl⟩ : ∃ j'', j' = j'' + 1 := ⟨j' - 1, by omega⟩
          have hYxs := (ih (i' + 1) (j'' + 1) hxs).2.2.2 hxl (by omega)
          rw [hcost, if_pos hxl]
          exact le_trans (affine_Y_le_ext q r c g e i' j'') (Nat.add_le_add_right hYxs _)
        · have hDxs := (ih (i' + 1) j' hxs).1
          rw [hcost, if_neg hxl]
          exact le_trans (affine_Y_le_open q r c g e i' j') (Nat.add_le_add_right hDxs _)
      have hD : affine q r c g e .D i (j' + 1) ≤
          alignmentCost q r c g e (xs ++ [Op.ins]) := by
        rcases i with _ | i'
        · have ha := align_left_empty (xs ++ [Op.ins]) (j' + 1)
            ⟨by simp [List.count_append, List.count_cons, beq_iff_eq]; omega,
             by simp [List.count_append, List.count_cons, beq_iff_eq]; omega⟩
          rw [ha, alignmentCost,
            alignCost_replicate_ins q r c g e j' 0 0 none (by simp),
            affine_D_zero_succ]
        · exact le_trans (affine_D_le_Y q r c g e i' j') (hY i' rfl)
      refine ⟨hD, ?_, ?_, fun _ hi => ?_⟩
      · rw [hlast]
        intro hbad
        exact absurd (Option.some.inj hbad) (by simp)
      · rw [hlast]
        intro hbad
        exact absurd (Option.some.inj hbad) (by simp)
      · obtain ⟨i', rfl⟩ : ∃ i', i = i' + 1 := ⟨i - 1, by omega⟩
        exact hY i' rfl

/-! ### Completeness: when `e ≤ g`, the recurrence value is attained -/

theorem isAlign_nil : IsAlign 0 0 ([] : List Op) := by
  constructor <;> simp

theorem isAlign_replicate_del (i : Nat) : IsAlign i 0 (List.replicate i Op.del) := by
  constructor <;> simp [List.count_replicate, beq_iff_eq]

theorem isAlign_replicate_ins (j : Nat) : IsAlign 0 j (List.replicate j Op.ins) := by
  constructor <;> simp [List.count_replicate, beq_iff_eq]

theorem isAlign_snoc_sub (i j : Nat) (b : List Op) (h : IsAlign i j b) :
    IsAlign (i + 1) (j + 1) (b ++ [Op.sub]) := by
  obtain ⟨h1, h2⟩ := h
  constructor <;> (simp [List.count_append, List.count_cons, beq_iff_eq]; omega)

theorem isAlign_snoc_del (i j : Nat) (b : List Op) (h : IsAlign i j b) :
    IsAlign (i + 1) j (b ++ [Op.del]) := by
  obtain ⟨h1, h2⟩ := h
  constructor <;> (simp [List.count_append, List.count_cons, beq_iff_eq]; omega)

theorem isAlign_snoc_ins (i j : Nat) (b : List Op) (h : IsAlign i j b) :
    IsAlign i (j + 1) (b ++ [Op.ins]) := by
  obtain ⟨h1, h2⟩ := h
  constructor <;> (simp [List.count_append, List.count_cons, beq_iff_eq]; omega)

theorem alignmentCost_snoc_sub_of_align (q r c : List Nat) (g e : Nat)
    (i j : Nat) (b : List Op) (hb : IsAlign i j b) :
    alignmentCost q r c g e (b ++ [Op.sub]) =
      alignmentCost q r c g e b + substCost q r c (i + 1) (j + 1) := by
  rw [alignmentCost_snoc_sub, hb.1, hb.2]
  simp [substCost]

theorem alignmentCost_replicate_del (q r c : List Nat) (g e k : Nat) :
    alignmentCost q r c g e (List.replicate (k + 1) Op.del) = g + k * e := by
  rw [alignmentCost, alignCost_replicate_del q r c g e k 0 0 none (by simp)]

theorem alignmentCost_replicate_ins (q r c : List Nat) (g e k : Nat) :
    alignmentCost q r c g e (List.replicate (k + 1) Op.ins) = g + k * e := by
  rw [alignmentCost, alignCost_replicate_ins q r c g e k 0 0 none (by simp)]

theorem getLast?_replicate_succ (k : Nat) (o : Op) :
    (List.replicate (k + 1) o).getLast? = some o := by
  rw [List.replicate_succ', List.getLast?_concat]

/-- Completeness direction of Gotoh's recurrence, valid when
`gapExtendCost ≤ gapOpenCost`: every DP state value is attained (or beaten)
by an actual alignment of the corresponding shape. -/
theorem exists_align_le (q r c : List Nat) (g e : Nat) (hge : e ≤ g) :
    ∀ N i j, i + j ≤ N →
      (∃ a, IsAlign i j a ∧ alignmentCost q r c g e a ≤ affine q r c g e .D i j) ∧
      (1 ≤ i → 1 ≤ j → ∃ a, IsAlign i j a ∧ a.getLast? = some Op.del ∧
        alignmentCost q r c g e a ≤ affine q r c g e .X i j) ∧
      (1 ≤ i → 1 ≤ j → ∃ a, IsAlign i j a ∧ a.getLast? = some Op.ins ∧
        alignmentCost q r c g e a ≤ affine q r c g e .Y i j) := by
  intro N
  induction N with
  | zero =>
    intro i j hij
    obtain rfl : i = 0 := by omega
    obtain rfl : j = 0 := by omega
    refine ⟨⟨[], isAlign_nil, ?_⟩, by omega, by omega⟩
    rw [affine_D_zero_zero, alignmentCost]
    simp [alignCost]
  | succ N ihN =>
    intro i j hij
    rcases i with _ | i'
    · -- empty query: only the ins-run alignment, and no del/ins clauses with 1 ≤ 0
      refine ⟨?_, by omega, by omega⟩
      rcases j with _ | j'
      · refine ⟨[], isAlign_nil, ?_⟩
        rw [affine_D_zero_zero, alignmentCost]
        simp [alignCost]
      · refine ⟨List.replicate (j' + 1) Op.ins, isAlign_replicate_ins (j' + 1), ?_⟩
        rw [affine_D_zero_succ, alignmentCost_replicate_ins]
    · rcases j with _ | j'
      · refine ⟨?_, by omega, by omega⟩
        refine ⟨List.replicate (i' + 1) Op.del, isAlign_replicate_del (i' + 1), ?_⟩
        rw [affine_D_succ_zero, alignmentCost_replicate_del]
      · -- interior cell
        have hXc : ∃ a, IsAlign (i' + 1) (j' + 1) a ∧ a.getLast? = some Op.del ∧
            alignmentCost q r c g e a ≤ affine q r c g e .X (i' + 1) (j' + 1) := by
          rcases i' with _ | i''
          · refine ⟨List.replicate (j' + 1) Op.ins ++ [Op.del],
              isAlign_snoc_del 0 (j' + 1) _ (isAlign_replicate_ins (j' + 1)),
              List.getLast?_concat _, ?_⟩
            rw [affine_X_one_succ, affine_D_zero_succ, alignmentCost_snoc_del,
              getLast?_replicate_succ, alignmentCost_replicate_ins]
            simp
          · have hsum : i'' + 1 + (j' + 1) ≤ N := by omega
            rw [affine_X_succ_succ]
            rcases le_total (affine q r c g e .D (i'' + 1) (j' + 1) + g)
                (affine q r c g e .X (i'' + 1) (j' + 1) + e) with hc | hc
            · obtain ⟨b, hb, hbc⟩ := (ihN (i'' + 1) (j' + 1) hsum).1
              refine ⟨b ++ [Op.del], isAlign_snoc_del _ _ _ hb, List.getLast?_concat _, ?_⟩
              rw [min_eq_left hc, alignmentCost_snoc_del]
              have hstep : (if b.getLast? = some Op.del then e else g) ≤ g := by
                split
                · exact hge
                · exact le_refl g
              exact le_trans (Nat.add_le_add hbc hstep) (le_refl _)
            · obtain ⟨b, hb, hbl, hbc⟩ := (ihN (i'' + 1) (j' + 1) hsum).2.1 (by omega) (by omega)
              refine ⟨b ++ [Op.del], isAlign_snoc_del _ _ _ hb, List.getLast?_concat _, ?_⟩
              rw [min_eq_right hc, alignmentCost_snoc_del, if_pos hbl]
              exact Nat.add_le_add_right hbc e
        have hYc : ∃ a, IsAlign (i' + 1) (j' + 1) a ∧ a.getLast? = some Op.ins ∧
            alignmentCost q r c g e a ≤ affine q r c g e .Y (i' + 1) (j' + 1) := by
          rcases j' with _ | j''
          · refine ⟨List.replicate (i' + 1) Op.del ++ [Op.ins],
              isAlign_snoc_ins (i' + 1) 0 _ (isAlign_replicate_del (i' + 1)),
              List.getLast?_concat _, ?_⟩
            rw [affine_Y_succ_one, affine_D_succ_zero, alignmentCost_snoc_ins,
              getLast?_replicate_succ, alignmentCost_replicate_del]
            simp
          · have hsum : i' + 1 + (j'' + 1) ≤ N := by omega
            rw [affine_Y_succ_succ]
            rcases le_total (affine q r c g e .D (i' + 1) (j'' + 1) + g)
                (affine q r c g e .Y (i' + 1) (j'' + 1) + e) with hc | hc
            · obtain ⟨b, hb, hbc⟩ := (ihN (i' + 1) (j'' + 1) hsum).1
              refine ⟨b ++ [Op.ins], isAlign_snoc_ins _ _ _ hb, List.getLast?_concat _, ?_⟩
              rw [min_eq_left hc, alignmentCost_snoc_ins]
              have hstep : (if b.getLast? = some Op.ins then e else g) ≤ g := by
                split
                · exact hge
                · exact le_refl g
              exact Nat.add_le_add hbc hstep
            · obtain ⟨b, hb, hbl, hbc⟩ := (ihN (i' + 1) (j'' + 1) hsum).2.2 (by omega) (by omega)
              refine ⟨b ++ [Op.ins], isAlign_snoc_ins _ _ _ hb, List.getLast?_concat _, ?_⟩
              rw [min_eq_right hc, alignmentCost_snoc_ins, if_pos hbl]
              exact Nat.add_le_add_right hbc e
        have hDc : ∃ a, IsAlign (i' + 1) (j' + 1) a ∧
            alignmentCost q r c g e a ≤ affine q r c g e .D (i' + 1) (j' + 1) := by
          rcases le_total (affine q r c g e .M (i' + 1) (j' + 1))
              (min (affine q r c g e .X (i' + 1) (j' + 1))
                (affine q r c g e .Y (i' + 1) (j' + 1))) with hmle | hmle
          · obtain ⟨b, hb, hbc⟩ := (ihN i' j' (by omega)).1
            refine ⟨b ++ [Op.sub], isAlign_snoc_sub _ _ _ hb, ?_⟩
            rw [affine_D_succ_succ, min_eq_left hmle,
              alignmentCost_snoc_sub_of_align q r c g e i' j' b hb, affine_M_succ_succ]
            exact Nat.add_le_add_right hbc _
          · rw [affine_D_succ_succ, min_eq_right hmle]
            rcases le_total (affine q r c g e .X (i' + 1) (j' + 1))
                (affine q r c g e .Y (i' + 1) (j' + 1)) with hxy | hxy
            · obtain ⟨a, ha, _, hac⟩ := hXc
              exact ⟨a, ha, by rw [min_eq_left hxy]; exact hac⟩
            · obtain ⟨a, ha, _, hac⟩ := hYc
              exact ⟨a, ha, by rw [min_eq_right hxy]; exact hac⟩
        exact ⟨hDc, fun _ _ => hXc, fun _ _ => hYc⟩

/-! ### Further cell facts and the optimum characterisation -/

theorem affine_M_zero_left (q r c : List Nat) (g e j : Nat) :
    affine q r c g e .M 0 j = 0 := by
  rcases j with _ | j <;> simp [affine]

theorem affine_M_zero_right (q r c : List Nat) (g e i : Nat) :
    affine q r c g e .M i 0 = 0 := by
  rcases i with _ | i <;> simp [affine]

theorem affine_X_zero_left (q r c : List Nat) (g e j : Nat) :
    affine q r c g e .X 0 j = 0 := by
  rcases j with _ | j <;> simp [affine]

theorem getD_replicate_of_lt (n a k : Nat) (h : k < n) :
    (List.replicate n a).getD k 0 = a := by
  induction n generalizing k with
  | zero => omega
  | succ n ih =>
    rw [List.replicate_succ]
    rcases k with _ | k
    · rfl
    · exact ih k (by omega)

/-- The optimum characterisation (amendable form of §4.1's claim): when
`gapExtendCost ≤ gapOpenCost`, `D(n, m)` is the least cost over all
alignments of the two sequences. -/
theorem gotoh_isLeast (q r c : List Nat) (g e : Nat) (hge : e ≤ g) :
    IsLeast {v : Nat | ∃ a, IsAlign q.length r.length a ∧ alignmentCost q r c g e a = v}
      (affineD q r c g e) := by
  constructor
  · obtain ⟨a, ha, hac⟩ :=
      (exists_align_le q r c g e hge (q.length + r.length) q.length r.length le_rfl).1
    have hlb := (affine_le_alignmentCost q r c g e a q.length r.length ha).1
    exact ⟨a, ha, le_antisymm hac hlb⟩
  · rintro v ⟨a, ha, rfl⟩
    exact (affine_le_alignmentCost q r c g e a q.length r.length ha).1

/-! ### Enumeration of short alignments (for refutations) -/

/-- All operation lists of a given length. -/
def opListsLen : Nat → List (List Op)
  | 0 => [[]]
  | n + 1 => (opListsLen n).flatMap (fun l => [Op.sub :: l, Op.del :: l, Op.ins :: l])

/-- All operation lists of length at most `n`. -/
def opListsUpTo (n : Nat) : List (List Op) :=
  (List.range (n + 1)).flatMap opListsLen

theorem mem_opListsLen : ∀ a : List Op, a ∈ opListsLen a.length := by
  intro a
  induction a with
  | nil => simp [opListsLen]
  | cons x xs ih =>
    simp only [List.length_cons, opListsLen]
    rw [List.mem_flatMap]
    refine ⟨xs, ih, ?_⟩
    cases x <;> simp

theorem mem_opListsUpTo (a : List Op) (n : Nat) (h : a.length ≤ n) : a ∈ opListsUpTo n := by
  rw [opListsUpTo, List.mem_flatMap]
  exact ⟨a.length, List.mem_range.mpr (by omega), mem_opListsLen a⟩

theorem length_eq_counts (a : List Op) :
    a.length = a.count Op.sub + a.count Op.del + a.count Op.ins := by
  induction a with
  | nil => simp
  | cons x xs ih =>
    cases x <;> (simp [List.count_cons, beq_iff_eq, ih]; omega)

theorem length_le_of_isAlign (i j : Nat) (a : List Op) (h : IsAlign i j a) :
    a.length ≤ i + j := by
  obtain ⟨h1, h2⟩ := h
  have := length_eq_counts a
  omega

/-! ### The validated entry point on embedded natural inputs -/

theorem computeCost_ofNat (q r costs : List Nat) (g e : Nat) (h : costs.length = q.length) :
    computeCost q r (costs.map Int.ofNat) (Int.ofNat g) (Int.ofNat e) =
      Except.ok (affineD q r costs g e) := by
  unfold computeCost
  rw [if_neg (by simp [h])]
  rw [if_neg ?hval]
  case hval =>
    push_neg
    refine ⟨Int.ofNat_nonneg g, Int.ofNat_nonneg e, ?_⟩
    intro x hx
    obtain ⟨y, _, rfl⟩ := List.mem_map.mp hx
    exact Int.ofNat_nonneg y
  have hmap : (costs.map Int.ofNat).map Int.toNat = costs := by
    rw [List.map_map, (show Int.toNat ∘ Int.ofNat = id from rfl), List.map_id]
  rw [hmap]
  rw [(show (Int.ofNat g).toNat = g from rfl), (show (Int.ofNat e).toNat = e from rfl), affineD]

/-! ### Monotonicity of the optimum in the cost parameters -/

theorem getD_mono {c c' : List Nat} (h : List.Forall₂ (· ≤ ·) c c') :
    ∀ k : Nat, c.getD k 0 ≤ c'.getD k 0 := by
  induction h with
  | nil => intro k; exact le_refl _
  | cons hx hxs ih =>
    intro k
    rcases k with _ | k
    · simpa using hx
    · simpa using ih k

theorem substCost_mono (q r : List Nat) {c c' : List Nat}
    (h : List.Forall₂ (· ≤ ·) c c') (i j : Nat) :
    substCost q r c i j ≤ substCost q r c' i j := by
  unfold substCost
  split
  · exact le_refl _
  · exact getD_mono h _

/-- The recurrence value is weakly monotone in every substitution cost, in
the gap-open cost and in the gap-extend cost, at every cell and state. -/
theorem affine_mono (q r : List Nat) {c c' : List Nat} {g g' e e' : Nat}
    (hc : List.Forall₂ (· ≤ ·) c c') (hg : g ≤ g') (he : e ≤ e') :
    ∀ N (s : GState) (i j : Nat), 2 * (i + j) + s.rank ≤ N →
      affine q r c g e s i j ≤ affine q r c' g' e' s i j := by
  intro N
  induction N with
  | zero =>
    intro s i j h
    have hi : i = 0 := by omega
    have hj : j = 0 := by omega
    subst hi
    subst hj
    cases s with
    | M => rw [affine_M_zero_left, affine_M_zero_left]
    | X => rw [affine_X_zero, affine_X_zero]
    | Y => rw [affine_Y_zero, affine_Y_zero]
    | D => simp [GState.rank] at h
  | succ N ihN =>
    intro s i j h
    cases s with
    | D =>
      rcases i with _ | i
      · rcases j with _ | j
        · rw [affine_D_zero_zero, affine_D_zero_zero]
        · rw [affine_D_zero_succ, affine_D_zero_succ]
          exact Nat.add_le_add hg (Nat.mul_le_mul (le_refl j) he)
      · rcases j with _ | j
        · rw [affine_D_succ_zero, affine_D_succ_zero]
          exact Nat.add_le_add hg (Nat.mul_le_mul (le_refl i) he)
        · rw [affine_D_succ_succ, affine_D_succ_succ]
          have hrank : (GState.D).rank = 1 := rfl
          refine min_le_min (ihN .M (i + 1) (j + 1) ?_)
            (min_le_min (ihN .X (i + 1) (j + 1) ?_) (ihN .Y (i + 1) (j + 1) ?_))
          all_goals (simp [GState.rank] at h ⊢; omega)
    | M =>
      rcases i with _ | i
      · rw [affine_M_zero_left, affine_M_zero_left]
      · rcases j with _ | j
        · rw [affine_M_zero_right, affine_M_zero_right]
        · rw [affine_M_succ_succ, affine_M_succ_succ]
          refine Nat.add_le_add (ihN .D i j ?_) (substCost_mono q r hc _ _)
          simp [GState.rank] at h ⊢
          omega
    | X =>
      rcases i with _ | i
      · rw [affine_X_zero_left, affine_X_zero_left]
      · rcases j with _ | j
        · rw [affine_X_zero, affine_X_zero]
        · rcases i with _ | i
          · rw [affine_X_one_succ, affine_X_one_succ]
            refine Nat.add_le_add (ihN .D 0 (j + 1) ?_) hg
            simp [GState.rank] at h ⊢
            omega
          · rw [affine_X_succ_succ, affine_X_succ_succ]
            refine min_le_min (Nat.add_le_add (ihN .D (i + 1) (j + 1) ?_) hg)
              (Nat.add_le_add (ihN .X (i + 1) (j + 1) ?_) he)
            all_goals (simp [GState.rank] at h ⊢; omega)
    | Y =>
      rcases i with _ | i
      · rw [affine_Y_zero, affine_Y_zero]
      · rcases j with _ | j
        · rw [affine_Y_zero_right, affine_Y_zero_right]
        · rcases j with _ | j
          · rw [affine_Y_succ_one, affine_Y_succ_one]
            refine Nat.add_le_add (ihN .D (i + 1) 0 ?_) hg
            simp [GState.rank] at h ⊢
            omega
          · rw [affine_Y_succ_succ, affine_Y_succ_succ]
            refine min_le_min (Nat.add_le_add (ihN .D (i + 1) (j + 1) ?_) hg)
              (Nat.add_le_add (ihN .Y (i + 1) (j + 1) ?_) he)
            all_goals (simp [GState.rank] at h ⊢; omega)

/-- Monotonicity at the engine's result. -/
theorem affineD_mono (q r : List Nat) {c c' : List Nat} {g g' e e' : Nat}
    (hc : List.Forall₂ (· ≤ ·) c c') (hg : g ≤ g') (he : e ≤ e') :
    affineD q r c g e ≤ affineD q r c' g' e' :=
  affine_mono q r hc hg he (2 * (q.length + r.length) + 1) .D q.length r.length
    (by simp [GState.rank])

/-! ### Symmetry of the result for position-invariant cost arrays -/

theorem substCost_symm_const (s t : List Nat) (cv i j : Nat)
    (hi : i < s.length) (hj : j < t.length) :
    substCost s t (List.replicate s.length cv) (i + 1) (j + 1) =
      substCost t s (List.replicate t.length cv) (j + 1) (i + 1) := by
  unfold substCost
  simp only [Nat.add_sub_cancel]
  by_cases h : s.getD i 0 = t.getD j 0
  · rw [if_pos h, if_pos h.symm]
  · rw [if_neg h, if_neg (fun hh => h hh.symm),
      getD_replicate_of_lt _ _ _ hi, getD_replicate_of_lt _ _ _ hj]

/-- With a position-invariant substitution cost array, every DP cell is
symmetric under swapping the two sequences (`X` and `Y` swap roles). -/
theorem affine_symm_const (s t : List Nat) (cv g e : Nat) :
    ∀ N i j, i + j ≤ N → i ≤ s.length → j ≤ t.length →
      (affine s t (List.replicate s.length cv) g e .D i j =
        affine t s (List.replicate t.length cv) g e .D j i) ∧
      (affine s t (List.replicate s.length cv) g e .M i j =
        affine t s (List.replicate t.length cv) g e .M j i) ∧
      (affine s t (List.replicate s.length cv) g e .X i j =
        affine t s (List.replicate t.length cv) g e .Y j i) ∧
      (affine s t (List.replicate s.length cv) g e .Y i j =
        affine t s (List.replicate t.length cv) g e .X j i) := by
  intro N
  induction N with
  | zero =>
    intro i j hij hi hj
    obtain rfl : i = 0 := by omega
    obtain rfl : j = 0 := by omega
    refine ⟨by rw [affine_D_zero_zero, affine_D_zero_zero],
      by rw [affine_M_zero_left, affine_M_zero_left],
      by rw [affine_X_zero_left, affine_Y_zero],
      by rw [affine_Y_zero, affine_X_zero_left]⟩
  | succ N ihN =>
    intro i j hij hi hj
    have hM : affine s t (List.replicate s.length cv) g e .M i j =
        affine t s (List.replicate t.length cv) g e .M j i := by
      rcases i with _ | i
      · rw [affine_M_zero_left, affine_M_zero_right]
      · rcases j with _ | j
        · rw [affine_M_zero_right, affine_M_zero_left]
        · rw [affine_M_succ_succ, affine_M_succ_succ,
            (ihN i j (by omega) (by omega) (by omega)).1,
            substCost_symm_const s t cv i j (by omega) (by omega)]
    have hX : affine s t (List.replicate s.length cv) g e .X i j =
        affine t s (List.replicate t.length cv) g e .Y j i := by
      rcases i with _ | i
      · rw [affine_X_zero_left, affine_Y_zero_right]
      · rcases j with _ | j
        · rw [affine_X_zero, affine_Y_zero]
        · rcases i with _ | i
          · rw [affine_X_one_succ, affine_Y_succ_one, affine_D_zero_succ,
              affine_D_succ_zero]
          · rw [affine_X_succ_succ, affine_Y_succ_succ,
              (ihN (i + 1) (j + 1) (by omega) (by omega) (by omega)).1,
              (ihN (i + 1) (j + 1) (by omega) (by omega) (by omega)).2.2.1]
    have hY : affine s t (List.replicate s.length cv) g e .Y i j =
        affine t s (List.replicate t.length cv) g e .X j i := by
      rcases j with _ | j
      · rw [affine_Y_zero_right, affine_X_zero_left]
      · rcases i with _ | i
        · rw [affine_Y_zero, affine_X_zero]
        · rcases j with _ | j
          · rw [affine_Y_succ_one, affine_X_one_succ, affine_D_succ_zero,
              affine_D_zero_succ]
          · rw [affine_Y_succ_succ, affine_X_succ_succ,
              (ihN (i + 1) (j + 1) (by omega) (by omega) (by omega)).1,
              (ihN (i + 1) (j + 1) (by omega) (by omega) (by omega)).2.2.2]
    have hD : affine s t (List.replicate s.length cv) g e .D i j =
        affine t s (List.replicate t.length cv) g e .D j i := by
      rcases i with _ | i
      · rcases j with _ | j
        · rw [affine_D_zero_zero, affine_D_zero_zero]
        · rw [affine_D_zero_succ, affine_D_succ_zero]
      · rcases j with _ | j
        · rw [affine_D_succ_zero, affine_D_zero_succ]
        · rw [affine_D_succ_succ, affine_D_succ_succ, hM, hX, hY,
            min_comm (affine t s (List.replicate t.length cv) g e .Y (j + 1) (i + 1))
              (affine t s (List.replicate t.length cv) g e .X (j + 1) (i + 1))]
    exact ⟨hD, hM, hX, hY⟩

theorem affineD_symm_const (s t : List Nat) (cv g e : Nat) :
    affineD s t (List.replicate s.length cv) g e =
      affineD t s (List.replicate t.length cv) g e :=
  (affine_symm_const s t cv g e (s.length + t.length) s.length t.length
    le_rfl le_rfl le_rfl).1

/-! ### The classic Levenshtein distance (spec-side definition for the
refinement claim) -/

/-- Modelled from the spec: the classic unweighted edit distance (each
substitution, insertion or deletion costs exactly 1), written as the
textbook prefix recurrence; `levenshtein q r i j` is the edit distance
between `q[0..i)` and `r[0..j)`. -/
def levenshtein (q r : List Nat) : Nat → Nat → Nat
  | 0, j => j
  | i + 1, 0 => i + 1
  | i + 1, j + 1 =>
      min (levenshtein q r i j + (if q.getD i 0 = r.getD j 0 then 0 else 1))
        (min (levenshtein q r i (j + 1) + 1) (levenshtein q r (i + 1) j + 1))

theorem affine_X_open_of_eq (q r c : List Nat) (g i j : Nat) :
    affine q r c g g .X (i + 1) (j + 1) = affine q r c g g .D i (j + 1) + g := by
  rcases i with _ | i
  · rw [affine_X_one_succ]
  · rw [affine_X_succ_succ]
    exact min_eq_left (Nat.add_le_add_right (affine_D_le_X q r c g g i j) g)

theorem affine_Y_open_of_eq (q r c : List Nat) (g i j : Nat) :
    affine q r c g g .Y (i + 1) (j + 1) = affine q r c g g .D (i + 1) j + g := by
  rcases j with _ | j
  · rw [affine_Y_succ_one]
  · rw [affine_Y_succ_succ]
    exact min_eq_left (Nat.add_le_add_right (affine_D_le_Y q r c g g i j) g)

/-- With all substitution costs 1 and both gap costs 1, the recurrence
computes the classic Levenshtein distance. -/
theorem affine_eq_levenshtein (q r : List Nat) :
    ∀ N i j, i + j ≤ N → i ≤ q.length → j ≤ r.length →
      affine q r (List.replicate q.length 1) 1 1 .D i j = levenshtein q r i j := by
  intro N
  induction N with
  | zero =>
    intro i j hij hi hj
    obtain rfl : i = 0 := by omega
    obtain rfl : j = 0 := by omega
    rw [affine_D_zero_zero]
    simp [levenshtein]
  | succ N ihN =>
    intro i j hij hi hj
    rcases i with _ | i
    · rcases j with _ | j
      · rw [affine_D_zero_zero]
        simp [levenshtein]
      · rw [affine_D_zero_succ]
        simp [levenshtein]
        omega
    · rcases j with _ | j
      · rw [affine_D_succ_zero]
        simp [levenshtein]
        omega
      · have hsubst : substCost q r (List.replicate q.length 1) (i + 1) (j + 1) =
            if q.getD i 0 = r.getD j 0 then 0 else 1 := by
          unfold substCost
          simp only [Nat.add_sub_cancel]
          by_cases h : q.getD i 0 = r.getD j 0
          · rw [if_pos h, if_pos h]
          · rw [if_neg h, if_neg h, getD_replicate_of_lt _ _ _ (by omega)]
        rw [affine_D_succ_succ, affine_M_succ_succ, affine_X_open_of_eq,
          affine_Y_open_of_eq,
          ihN i j (by omega) (by omega) (by omega),
          ihN i (j + 1) (by omega) (by omega) (by omega),
          ihN (i + 1) j (by omega) (by omega) (by omega), hsubst]
        simp [levenshtein]

/-! ### Upper bounds from explicit alignments (for §3's invariant) -/

theorem affineD_le_two_runs (q r c : List Nat) (g e : Nat)
    (hq : 1 ≤ q.length) (hr : 1 ≤ r.length) :
    affineD q r c g e ≤ g + (q.length - 1) * e + (g + (r.length - 1) * e) := by
  obtain ⟨n, hn⟩ : ∃ n, q.length = n + 1 := ⟨q.length - 1, by omega⟩
  obtain ⟨m, hm⟩ : ∃ m, r.length = m + 1 := ⟨r.length - 1, by omega⟩
  have halign : IsAlign q.length r.length
      (List.replicate q.length Op.del ++ List.replicate r.length Op.ins) := by
    constructor <;>
      (simp [List.count_append, List.count_replicate, beq_iff_eq])
  have hcost : alignmentCost q r c g e
      (List.replicate q.length Op.del ++ List.replicate r.length Op.ins) =
      g + (q.length - 1) * e + (g + (r.length - 1) * e) := by
    rw [alignmentCost, alignCost_append, hn, hm]
    rw [alignCost_replicate_del q r c g e n 0 0 none (by simp)]
    have hlast : lastOp none (List.replicate (n + 1) Op.del) = some Op.del := by
      rw [lastOp_none, getLast?_replicate_succ]
    rw [hlast, alignCost_replicate_ins q r c g e m _ _ (some Op.del) (by simp)]
    simp
  calc affineD q r c g e ≤ _ :=
        (affine_le_alignmentCost q r c g e _ q.length r.length halign).1
    _ = _ := hcost

theorem affineD_le_allSub (q r c : List Nat) (g e : Nat)
    (hlen : q.length = r.length) :
    affineD q r c g e ≤ allSubCost q r c := by
  have halign : IsAlign q.length r.length (List.replicate q.length Op.sub) := by
    constructor <;>
      (simp [List.count_replicate, beq_iff_eq]; try omega)
  have hcost : alignmentCost q r c g e (List.replicate q.length Op.sub) =
      allSubCost q r c := by
    rw [alignmentCost, alignCost_replicate_sub, allSubCost]
  calc affineD q r c g e ≤ _ :=
        (affine_le_alignmentCost q r c g e _ q.length r.length halign).1
    _ = _ := hcost

/-! ### Convenient evaluated form of the entry point -/

theorem computeCost_eval (q r costs : List Nat) (g e : Nat)
    (hlen : costs.length = q.length) :
    computeCost q r (costs.map Int.ofNat) (Int.ofNat g) (Int.ofNat e) =
      Except.ok (affineTab q r costs g e) := by
  rw [computeCost_ofNat q r costs g e hlen, affineTab_eq]

/-! ### The claims -/

/-- C1 (amended): for validated inputs, `computeCost` returns exactly
`D(n, m)` of Gotoh's three-state recurrence with the stated boundaries —
unconditionally; and when moreover `gapExtendCost ≤ gapOpenCost`, that value
is the least total cost over all alignments, where a maximal gap run of
length `L` costs `g + (L-1)*e` and a substitution at query position `i`
costs `costs[i]`.  (The equivalence with the minimum over alignments fails
when `e > g`; see the counterexample.) -/
theorem claim_C1_gotoh_optimum (q r costs : List Nat) (g e : Nat)
    (hlen : costs.length = q.length) :
    computeCost q r (costs.map Int.ofNat) (Int.ofNat g) (Int.ofNat e) =
      Except.ok (affineD q r costs g e) ∧
    (e ≤ g → IsLeast {v : Nat | ∃ a, IsAlign q.length r.length a ∧
      alignmentCost q r costs g e a = v} (affineD q r costs g e)) :=
  ⟨computeCost_ofNat q r costs g e hlen, fun hge => gotoh_isLeast q r costs g e hge⟩

theorem claim_C1_gotoh_optimum_witness :
    (computeCost [65] [66] ([3].map Int.ofNat) (Int.ofNat 2) (Int.ofNat 1) =
      Except.ok (affineD [65] [66] [3] 2 1) ∧
    (1 ≤ 2 → IsLeast {v : Nat | ∃ a, IsAlign 1 1 a ∧
      alignmentCost [65] [66] [3] 2 1 a = v} (affineD [65] [66] [3] 2 1))) ∧
    IsLeast {v : Nat | ∃ a, IsAlign 1 1 a ∧
      alignmentCost [65] [66] [3] 2 1 a = v} (affineD [65] [66] [3] 2 1) :=
  ⟨claim_C1_gotoh_optimum [65] [66] [3] 2 1 rfl,
    (claim_C1_gotoh_optimum [65] [66] [3] 2 1 rfl).2 (by decide)⟩

set_option maxRecDepth 100000 in
/-- C1 counterexample: with `g = 1 < e = 100` on query `"ABC"`, reference
`"D"` and substitution costs `[1000, 1000, 1000]`, the recurrence returns 4,
yet no alignment costs 4 (the cheapest alignment costs 103), so the claimed
unconditional equality with the minimum over alignments is false. -/
theorem claim_C1_gotoh_optimum_counterexample :
    computeCost [65, 66, 67] [68] ([1000, 1000, 1000].map Int.ofNat)
      (Int.ofNat 1) (Int.ofNat 100) = Except.ok 4 ∧
    (∀ a : List Op, IsAlign 3 1 a →
      alignmentCost [65, 66, 67] [68] [1000, 1000, 1000] 1 100 a ≠ 4) := by
  constructor
  · rw [computeCost_eval [65, 66, 67] [68] [1000, 1000, 1000] 1 100 rfl]
    exact congrArg Except.ok (by decide)
  · intro a ha hc
    have hlen : a.length ≤ 4 := le_trans (length_le_of_isAlign 3 1 a ha) (by omega)
    have hall : ∀ b ∈ opListsUpTo 4, ¬(IsAlign 3 1 b ∧
        alignmentCost [65, 66, 67] [68] [1000, 1000, 1000] 1 100 b = 4) := by decide
    exact hall a (mem_opListsUpTo a 4 hlen) ⟨ha, hc⟩

/-- C2: the three literal examples of the test suite, symbols as ASCII codes
(`"AGTCCGGTG"` vs `"AGTCCATCGGTC"` etc.). -/
theorem claim_C2_literal_examples :
    computeCost [65, 71, 84, 67, 67, 71, 71, 84, 71]
        [65, 71, 84, 67, 67, 65, 84, 67, 71, 71, 84, 67]
        ([30, 40, 20, 20, 50, 60, 10, 20, 5].map Int.ofNat)
        (Int.ofNat 40) (Int.ofNat 10) = Except.ok 65 ∧
    computeCost [65, 84, 71, 71, 67, 67, 71] [65, 84, 67, 71, 67, 84, 71]
        ([40, 50, 10, 40, 50, 10, 40].map Int.ofNat)
        (Int.ofNat 20) (Int.ofNat 10) = Except.ok 20 ∧
    computeCost [65, 84, 67, 67, 84, 67] [65, 84, 67, 71, 71, 71, 67, 84, 67]
        ([50, 50, 50, 50, 50, 50].map Int.ofNat)
        (Int.ofNat 10) (Int.ofNat 5) = Except.ok 20 := by
  refine ⟨?_, ?_, ?_⟩
  · rw [computeCost_eval [65, 71, 84, 67, 67, 71, 71, 84, 71]
      [65, 71, 84, 67, 67, 65, 84, 67, 71, 71, 84, 67]
      [30, 40, 20, 20, 50, 60, 10, 20, 5] 40 10 rfl]
    exact congrArg Except.ok (by decide)
  · rw [computeCost_eval [65, 84, 71, 71, 67, 67, 71] [65, 84, 67, 71, 67, 84, 71]
      [40, 50, 10, 40, 50, 10, 40] 20 10 rfl]
    exact congrArg Except.ok (by decide)
  · rw [computeCost_eval [65, 84, 67, 67, 84, 67] [65, 84, 67, 71, 71, 71, 67, 84, 67]
      [50, 50, 50, 50, 50, 50] 10 5 rfl]
    exact congrArg Except.ok (by decide)

/-- C3: both inputs empty give 0; one empty input of length `L` gives
`g + (L-1)*e`, and the non-empty sequence is necessarily covered by one
single gap run (every alignment with an empty side is one replicated run). -/
theorem claim_C3_empty_inputs (g e : Nat) :
    computeCost [] [] [] (Int.ofNat g) (Int.ofNat e) = Except.ok 0 ∧
    (∀ t : List Nat, t ≠ [] →
      computeCost [] t [] (Int.ofNat g) (Int.ofNat e) =
        Except.ok (g + (t.length - 1) * e) ∧
      ∀ a : List Op, IsAlign 0 t.length a → a = List.replicate t.length Op.ins) ∧
    (∀ (s costs : List Nat), s ≠ [] → costs.length = s.length →
      computeCost s [] (costs.map Int.ofNat) (Int.ofNat g) (Int.ofNat e) =
        Except.ok (g + (s.length - 1) * e) ∧
      ∀ a : List Op, IsAlign s.length 0 a → a = List.replicate s.length Op.del) := by
  refine ⟨?_, ?_, ?_⟩
  · rw [(show ([] : List Int) = ([] : List Nat).map Int.ofNat from rfl),
      computeCost_ofNat [] [] [] g e rfl]
    refine congrArg Except.ok ?_
    rw [affineD]
    simp only [List.length_nil]
    exact affine_D_zero_zero [] [] [] g e
  · intro t ht
    obtain ⟨m, hm⟩ : ∃ m, t.length = m + 1 :=
      ⟨t.length - 1, by have := List.length_pos.mpr ht; omega⟩
    refine ⟨?_, fun a ha => align_left_empty a t.length ha⟩
    rw [(show ([] : List Int) = ([] : List Nat).map Int.ofNat from rfl),
      computeCost_ofNat [] t [] g e rfl]
    refine congrArg Except.ok ?_
    rw [affineD]
    simp only [List.length_nil]
    rw [hm, affine_D_zero_succ]
    simp
  · intro s costs hs hlen
    obtain ⟨n, hn⟩ : ∃ n, s.length = n + 1 :=
      ⟨s.length - 1, by have := List.length_pos.mpr hs; omega⟩
    refine ⟨?_, fun a ha => align_right_empty a s.length ha⟩
    rw [computeCost_ofNat s [] costs g e hlen]
    refine congrArg Except.ok ?_
    rw [affineD]
    simp only [List.length_nil]
    rw [hn, affine_D_succ_zero]
    simp

theorem claim_C3_empty_inputs_witness :
    computeCost [] [] [] (Int.ofNat 7) (Int.ofNat 3) = Except.ok 0 ∧
    (computeCost [] [65, 67, 67] [] (Int.ofNat 7) (Int.ofNat 3) =
        Except.ok (7 + ([65, 67, 67].length - 1) * 3) ∧
      ∀ a : List Op, IsAlign 0 [65, 67, 67].length a →
        a = List.replicate [65, 67, 67].length Op.ins) ∧
    (computeCost [65, 67] [] ([9, 9].map Int.ofNat) (Int.ofNat 7) (Int.ofNat 3) =
        Except.ok (7 + ([65, 67].length - 1) * 3) ∧
      ∀ a : List Op, IsAlign [65, 67].length 0 a →
        a = List.replicate [65, 67].length Op.del) :=
  ⟨(claim_C3_empty_inputs 7 3).1,
    (claim_C3_empty_inputs 7 3).2.1 [65, 67, 67] (by decide),
    (claim_C3_empty_inputs 7 3).2.2 [65, 67] [9, 9] (by decide) rfl⟩

/-- C4: with all substitution costs 1 and both gap costs 1, the engine
computes the classic unweighted Levenshtein distance. -/
theorem claim_C4_levenshtein (s t : List Nat) :
    computeCost s t ((List.replicate s.length 1).map Int.ofNat)
      (Int.ofNat 1) (Int.ofNat 1) =
      Except.ok (levenshtein s t s.length t.length) := by
  rw [computeCost_ofNat s t _ 1 1 (by simp)]
  refine congrArg Except.ok ?_
  rw [affineD]
  exact affine_eq_levenshtein s t (s.length + t.length) s.length t.length
    le_rfl le_rfl le_rfl

/-- C5: the result is non-negative, `computeCost` returns it on valid
inputs, and it never exceeds either naive strategy: two separate whole-
sequence gap runs (both inputs non-empty), or the all-substitution alignment
when the lengths are equal. -/
theorem claim_C5_bounds (q r costs : List Nat) (g e : Nat)
    (hlen : costs.length = q.length) :
    0 ≤ affineD q r costs g e ∧
    computeCost q r (costs.map Int.ofNat) (Int.ofNat g) (Int.ofNat e) =
      Except.ok (affineD q r costs g e) ∧
    (1 ≤ q.length → 1 ≤ r.length →
      affineD q r costs g e ≤ g + (q.length - 1) * e + (g + (r.length - 1) * e)) ∧
    (q.length = r.length → affineD q r costs g e ≤ allSubCost q r costs) :=
  ⟨Nat.zero_le _, computeCost_ofNat q r costs g e hlen,
    fun hq hr => affineD_le_two_runs q r costs g e hq hr,
    fun hl => affineD_le_allSub q r costs g e hl⟩

theorem claim_C5_bounds_witness :
    0 ≤ affineD [65] [66] [5] 2 1 ∧
    affineD [65] [66] [5] 2 1 ≤ 2 + 0 * 1 + (2 + 0 * 1) ∧
    affineD [65] [66] [5] 2 1 ≤ allSubCost [65] [66] [5] :=
  ⟨(claim_C5_bounds [65] [66] [5] 2 1 rfl).1,
    (claim_C5_bounds [65] [66] [5] 2 1 rfl).2.2.1 (by decide) (by decide),
    (claim_C5_bounds [65] [66] [5] 2 1 rfl).2.2.2 rfl⟩

/-- C6: raising substitution costs (entrywise, in particular any single
entry), the gap-open cost or the gap-extend cost never decreases the
returned value. -/
theorem claim_C6_monotone (q r costs costs' : List Nat) (g g' e e' : Nat)
    (hc : List.Forall₂ (· ≤ ·) costs costs') (hg : g ≤ g') (he : e ≤ e')
    (hlen : costs.length = q.length) :
    ∃ v v', computeCost q r (costs.map Int.ofNat) (Int.ofNat g) (Int.ofNat e) =
        Except.ok v ∧
      computeCost q r (costs'.map Int.ofNat) (Int.ofNat g') (Int.ofNat e') =
        Except.ok v' ∧
      v ≤ v' :=
  ⟨affineD q r costs g e, affineD q r costs' g' e',
    computeCost_ofNat q r costs g e hlen,
    computeCost_ofNat q r costs' g' e' (by rw [← hc.length_eq, hlen]),
    affineD_mono q r hc hg he⟩

theorem claim_C6_monotone_witness :
    ∃ v v', computeCost [65, 66] [67] ([1, 2].map Int.ofNat)
        (Int.ofNat 1) (Int.ofNat 0) = Except.ok v ∧
      computeCost [65, 66] [67] ([2, 3].map Int.ofNat)
        (Int.ofNat 2) (Int.ofNat 1) = Except.ok v' ∧
      v ≤ v' :=
  claim_C6_monotone [65, 66] [67] [1, 2] [2, 3] 1 2 0 1
    (List.Forall₂.cons (by omega) (List.Forall₂.cons (by omega) List.Forall₂.nil))
    (by omega) (by omega) rfl

/-- C7 (amended): for a 5-entry cost array whose entries lie within the
test suite's range `[10, 70]`,
`computeCost("ATGGA", "ATGTTCA", costs, 80, 10) = costs[3] + 80 + 10`.
(The unrestricted claim is false: a large enough `costs[3]` makes an
alignment avoiding query position 3 cheaper; see the counterexample.) -/
theorem claim_C7_mismatch_example (costs : List Nat) (hlen : costs.length = 5)
    (hbound : ∀ x ∈ costs, 10 ≤ x ∧ x ≤ 70) :
    computeCost [65, 84, 71, 71, 65] [65, 84, 71, 84, 84, 67, 65]
      (costs.map Int.ofNat) (Int.ofNat 80) (Int.ofNat 10) =
      Except.ok (costs.getD 3 0 + 80 + 10) := by
  rw [computeCost_ofNat [65, 84, 71, 71, 65] [65, 84, 71, 84, 84, 67, 65]
    costs 80 10 (by rw [hlen]; rfl)]
  refine congrArg Except.ok ?_
  rcases costs with _ | ⟨c0, costs⟩
  · simp at hlen
  rcases costs with _ | ⟨c1, costs⟩
  · simp at hlen
  rcases costs with _ | ⟨c2, costs⟩
  · simp at hlen
  rcases costs with _ | ⟨c3, costs⟩
  · simp at hlen
  rcases costs with _ | ⟨c4, costs⟩
  · simp at hlen
  rcases costs with _ | ⟨c5, costs⟩
  swap
  · simp at hlen
  obtain ⟨hb0, hb1⟩ := hbound c0 (by simp)
  obtain ⟨hb3l, hb3r⟩ := hbound c3 (by simp)
  obtain ⟨hb4l, hb4r⟩ := hbound c4 (by simp)
  have hub : affineD [65, 84, 71, 71, 65] [65, 84, 71, 84, 84, 67, 65]
      [c0, c1, c2, c3, c4] 80 10 ≤ c3 + 90 := by
    have halign : IsAlign 5 7
        [Op.sub, Op.sub, Op.sub, Op.sub, Op.ins, Op.ins, Op.sub] := by decide
    have hcost : alignmentCost [65, 84, 71, 71, 65] [65, 84, 71, 84, 84, 67, 65]
        [c0, c1, c2, c3, c4] 80 10
        [Op.sub, Op.sub, Op.sub, Op.sub, Op.ins, Op.ins, Op.sub] = c3 + 90 := by
      simp [alignmentCost, alignCost]
    calc affineD [65, 84, 71, 71, 65] [65, 84, 71, 84, 84, 67, 65]
          [c0, c1, c2, c3, c4] 80 10 ≤ _ :=
        (affine_le_alignmentCost [65, 84, 71, 71, 65] [65, 84, 71, 84, 84, 67, 65]
          [c0, c1, c2, c3, c4] 80 10 _ 5 7 halign).1
      _ = c3 + 90 := hcost
  have hlb : c3 + 90 ≤ affineD [65, 84, 71, 71, 65] [65, 84, 71, 84, 84, 67, 65]
      [c0, c1, c2, c3, c4] 80 10 := by
    have hmono : affineD [65, 84, 71, 71, 65] [65, 84, 71, 84, 84, 67, 65]
        [10, 10, 10, c3, 10] 80 10 ≤
        affineD [65, 84, 71, 71, 65] [65, 84, 71, 84, 84, 67, 65]
        [c0, c1, c2, c3, c4] 80 10 := by
      refine affineD_mono _ _ ?_ le_rfl le_rfl
      refine List.Forall₂.cons (by omega) (List.Forall₂.cons ?_ ?_)
      · exact (hbound c1 (by simp)).1
      refine List.Forall₂.cons ?_ (List.Forall₂.cons le_rfl
        (List.Forall₂.cons (by omega) List.Forall₂.nil))
      exact (hbound c2 (by simp)).1
    have hfin : ∀ k, k ≤ 60 → affineTab [65, 84, 71, 71, 65]
        [65, 84, 71, 84, 84, 67, 65] [10, 10, 10, 10 + k, 10] 80 10 =
        10 + k + 90 := by decide
    have hexact : affineD [65, 84, 71, 71, 65] [65, 84, 71, 84, 84, 67, 65]
        [10, 10, 10, c3, 10] 80 10 = c3 + 90 := by
      rw [← affineTab_eq]
      have := hfin (c3 - 10) (by omega)
      rw [(show 10 + (c3 - 10) = c3 by omega)] at this
      rw [this]
    omega
  have hget : [c0, c1, c2, c3, c4].getD 3 0 = c3 := rfl
  rw [hget]
  omega

theorem claim_C7_mismatch_example_witness :
    computeCost [65, 84, 71, 71, 65] [65, 84, 71, 84, 84, 67, 65]
      ([10, 20, 30, 40, 50].map Int.ofNat) (Int.ofNat 80) (Int.ofNat 10) =
      Except.ok ([10, 20, 30, 40, 50].getD 3 0 + 80 + 10) :=
  claim_C7_mismatch_example [10, 20, 30, 40, 50] rfl (by decide)

/-- C7 counterexample: with `costs = [10, 10, 10, 1000, 10]`, the engine
returns 180 (aligning around query position 3), not
`costs[3] + 80 + 10 = 1090` — the claim fails for an arbitrary 5-entry cost
array. -/
theorem claim_C7_mismatch_example_counterexample :
    computeCost [65, 84, 71, 71, 65] [65, 84, 71, 84, 84, 67, 65]
      ([10, 10, 10, 1000, 10].map Int.ofNat) (Int.ofNat 80) (Int.ofNat 10) =
      Except.ok 180 ∧ (180 : Nat) ≠ [10, 10, 10, 1000, 10].getD 3 0 + 80 + 10 := by
  constructor
  · rw [computeCost_eval [65, 84, 71, 71, 65] [65, 84, 71, 84, 84, 67, 65]
      [10, 10, 10, 1000, 10] 80 10 rfl]
    exact congrArg Except.ok (by decide)
  · decide

/-- C8: `computeCost` fails (with `InvalidCostArrayLength` or
`InvalidCostValue`) exactly when the cost-array length differs from the
query length, a gap cost is negative, or a substitution cost entry is
negative; on valid inputs it returns a value (the validation happens before
any DP work, and the embedding is pure, so inputs are never mutated). -/
theorem claim_C8_validation (q r : List Nat) (costs : List Int) (g e : Int) :
    (∃ msg, computeCost q r costs g e = Except.error msg) ↔
      (costs.length ≠ q.length ∨ g < 0 ∨ e < 0 ∨ ∃ x ∈ costs, x < 0) := by
  unfold computeCost
  split
  · next h => exact iff_of_true ⟨_, rfl⟩ (Or.inl h)
  · next h =>
    split
    · next h2 =>
      refine iff_of_true ⟨_, rfl⟩ (Or.inr ?_)
      rcases h2 with h2 | h2 | h2
      · exact Or.inl h2
      · exact Or.inr (Or.inl h2)
      · exact Or.inr (Or.inr h2)
    · next h2 =>
      refine iff_of_false ?_ ?_
      · rintro ⟨msg, hmsg⟩
        exact Except.noConfusion hmsg
      · rintro (hc | hc | hc | hc)
        · exact h hc
        · exact h2 (Or.inl hc)
        · exact h2 (Or.inr (Or.inl hc))
        · exact h2 (Or.inr (Or.inr hc))

/-- C9: with a position-invariant substitution cost array, the scalar result
is symmetric under swapping query and reference. -/
theorem claim_C9_symmetric_const (s t : List Nat) (cv g e : Nat) :
    computeCost s t ((List.replicate s.length cv).map Int.ofNat)
        (Int.ofNat g) (Int.ofNat e) =
      computeCost t s ((List.replicate t.length cv).map Int.ofNat)
        (Int.ofNat g) (Int.ofNat e) := by
  rw [computeCost_ofNat s t _ g e (by simp),
    computeCost_ofNat t s _ g e (by simp), affineD_symm_const]

/-- C10: on single differing symbols, the result is the cheaper of one
substitution and two length-1 gap runs, `min c (2 * g)`, independently of
the gap-extend cost (which is universally quantified and absent from the
result). -/
theorem claim_C10_single_symbols (a b cv g e : Nat) (hab : a ≠ b) :
    computeCost [a] [b] ([cv].map Int.ofNat) (Int.ofNat g) (Int.ofNat e) =
      Except.ok (min cv (2 * g)) := by
  rw [computeCost_ofNat [a] [b] [cv] g e rfl]
  refine congrArg Except.ok ?_
  rw [affineD]
  show affine [a] [b] [cv] g e .D (0 + 1) (0 + 1) = min cv (2 * g)
  rw [affine_D_succ_succ, affine_M_succ_succ, affine_X_one_succ,
    affine_Y_succ_one, affine_D_zero_zero, affine_D_zero_succ,
    affine_D_succ_zero]
  have hs : substCost [a] [b] [cv] (0 + 1) (0 + 1) = cv := by
    unfold substCost
    simp only [Nat.add_sub_cancel]
    rw [if_neg]
    · rfl
    · simpa using hab
  rw [hs]
  simp
  omega

theorem claim_C10_single_symbols_witness :
    computeCost [65] [66] ([3].map Int.ofNat) (Int.ofNat 2) (Int.ofNat 7) =
      Except.ok (min 3 (2 * 2)) :=
  claim_C10_single_symbols 65 66 3 2 7 (by decide)

end Whatshap

